import Mathlib

/-!
Verification of the keyed serialization queue of `order-api`.

The queue (`src/services/queue.js`) serializes asynchronous operations per
key (tenant id) in a single-threaded, run-to-completion host.  We embed it
as a small-step state machine whose atomic steps are exactly the host's
run-to-completion turns:

* `enqueue s k op` — a caller invokes `enqueue(tenantId, operation)`.  The
  JS body runs synchronously: it lazily creates the Map entry, pushes the
  `{operation, resolve, reject}` record, and, when no worker is marked
  `processing` for the key, calls `processQueue`, whose body also runs
  synchronously up to its first `await` (shifting the first entry and
  starting its operation).
* `finish s k` — the operation in flight for key `k` settles; the
  suspended `processQueue` resumes: it resolves/rejects the entry's
  promise and continues the `while` loop (starting the next entry, or
  deregistering the key when the backlog is empty).

Operations are embedded as world transformers `W → W × Except E V`: the
world effect and the eventual outcome are computed when the operation is
started (in the source, the shared-flag reads/writes of the reset job all
happen in the synchronous prefix of the operation), and the outcome is
delivered verbatim when the operation settles.

A ghost `log` records instrumentation events (submission, worker start /
stop, operation start, resolution / rejection); the spec's observable
properties are stated over this log.
-/

namespace OrderApi

/-- JS Map keys as used by the repository: tenant-id strings, plus `null`
(a legal JS Map key) so that submission with a null key can be discussed. -/
inductive JSKey where
  | str (s : String)
  | null
deriving DecidableEq, Repr

/-- Lookup in an insertion-ordered association list (JS `Map.get`). -/
def alookup {α : Type _} (k : JSKey) : List (JSKey × α) → Option α
  | [] => none
  | (k', v) :: rest => if k' = k then some v else alookup k rest

/-- JS `Map.set`: replace the binding in place when present, else append. -/
def aset {α : Type _} (k : JSKey) (v : α) : List (JSKey × α) → List (JSKey × α)
  | [] => [(k, v)]
  | (k', v') :: rest => if k' = k then (k, v) :: rest else (k', v') :: aset k v rest

/-- JS `Map.delete`: remove the binding for `k`. -/
def adel {α : Type _} (k : JSKey) : List (JSKey × α) → List (JSKey × α)
  | [] => []
  | (k', v') :: rest => if k' = k then adel k rest else (k', v') :: adel k rest

/-- JS `Set.has`. -/
def smem (k : JSKey) : List JSKey → Bool
  | [] => false
  | k' :: rest => if k' = k then true else smem k rest

/-- JS `Set.add`. -/
def sadd (k : JSKey) (s : List JSKey) : List JSKey :=
  if smem k s then s else s ++ [k]

/-- JS `Set.delete`. -/
def sdel (k : JSKey) : List JSKey → List JSKey
  | [] => []
  | k' :: rest => if k' = k then sdel k rest else k' :: sdel k rest

instance {E V : Type} [DecidableEq E] [DecidableEq V] : DecidableEq (Except E V) := fun a b =>
  match a, b with
  | .ok a, .ok b =>
      if h : a = b then .isTrue (by rw [h]) else .isFalse (fun he => h (Except.ok.inj he))
  | .error a, .error b =>
      if h : a = b then .isTrue (by rw [h]) else .isFalse (fun he => h (Except.error.inj he))
  | .ok _, .error _ => .isFalse (fun he => Except.noConfusion he)
  | .error _, .ok _ => .isFalse (fun he => Except.noConfusion he)

/-- Ghost instrumentation events.  `V` is the type of operation results,
`E` the type of operation failures. -/
inductive LogEv (V E : Type) where
  | enqueued (k : JSKey) (id : Nat)
  | workerStart (k : JSKey)
  | opStart (k : JSKey) (id : Nat) (out : Except E V)
  | resolved (k : JSKey) (id : Nat) (v : V)
  | rejected (k : JSKey) (id : Nat) (e : E)
  | workerStop (k : JSKey)
deriving DecidableEq

/-- The completion event the worker emits for outcome `out`: `resolve(result)`
in the success branch, `reject(error)` in the catch branch — the payload is
the operation's own outcome, untransformed. -/
def completionEv {V E : Type} (k : JSKey) (id : Nat) (out : Except E V) : LogEv V E :=
  match out with
  | .ok v => .resolved k id v
  | .error e => .rejected k id e

/-- A queued record: `{ operation, resolve, reject }` pushed by `enqueue`,
identified by its global submission sequence number. -/
structure Entry (W V E : Type) where
  id : Nat
  op : W → W × Except E V

/-- The whole-system state.  `queues` and `processing` are the two fields of
the `Queue` class; `current` holds, per key, the entry the suspended
`processQueue` frame is awaiting (its local variables), together with the
outcome that operation will deliver; `world` is the shared mutable state the
operations act on; `nextId` numbers submissions; `log` is ghost. -/
structure Sys (W V E : Type) where
  queues : List (JSKey × List (Entry W V E))
  processing : List JSKey
  current : List (JSKey × (Nat × Except E V))
  nextId : Nat
  world : W
  log : List (LogEv V E)

variable {W V E : Type}

/-- `const result = await operation()` begins: the operation's synchronous
prefix runs (world effect and outcome computed), and the worker suspends
holding the entry. -/
def startOp (s : Sys W V E) (k : JSKey) (e : Entry W V E) : Sys W V E :=
  let p := e.op s.world
  { s with
    world := p.1
    current := aset k (e.id, p.2) s.current
    log := s.log ++ [.opStart k e.id p.2] }

/-- One turn of the `while (queue.length > 0)` loop, from the loop test:
if the backlog is non-empty, `shift()` the first entry and start it;
otherwise exit the loop, `processing.delete(tenantId)` and — the captured
`queue` array is empty at loop exit and nothing can run between the test
and the deletes in a run-to-completion host, so the source's
`if (queue.length === 0)` guard necessarily holds — `queues.delete(tenantId)`. -/
def workerTurn (s : Sys W V E) (k : JSKey) : Sys W V E :=
  match (alookup k s.queues).getD [] with
  | e :: rest => startOp { s with queues := aset k rest s.queues } k e
  | [] =>
      { s with
        processing := sdel k s.processing
        queues := adel k s.queues
        log := s.log ++ [.workerStop k] }

/-- `processQueue(tenantId)` begins (called synchronously from `enqueue`):
`processing.add(tenantId)`, then the first loop turn. -/
def workerStart (s : Sys W V E) (k : JSKey) : Sys W V E :=
  workerTurn
    { s with
      processing := sadd k s.processing
      log := s.log ++ [.workerStart k] }
    k

/-- The synchronous part of `enqueue` before the worker check: create the
Map entry when absent, push the new record, bump the id counter. -/
def pushEntry (s : Sys W V E) (k : JSKey) (op : W → W × Except E V) : Sys W V E :=
  let q0 := if (alookup k s.queues).isSome then s.queues else aset k [] s.queues
  { s with
    queues := aset k (((alookup k q0).getD []) ++ [⟨s.nextId, op⟩]) q0
    nextId := s.nextId + 1
    log := s.log ++ [.enqueued k s.nextId] }

/-- `enqueue(tenantId, operation)`: push the record; when
`!this.processing.has(tenantId)`, call `processQueue` (which runs
synchronously up to its first `await`). -/
def enqueue (s : Sys W V E) (k : JSKey) (op : W → W × Except E V) : Sys W V E :=
  let s' := pushEntry s k op
  if smem k s'.processing then s' else workerStart s' k

/-- The in-flight operation for `k` settles and the suspended
`processQueue` frame resumes: resolve or reject the entry's promise with
the operation's own outcome, then continue the loop.  When nothing is in
flight for `k` the event is a no-op (it cannot arise in a real schedule). -/
def finish (s : Sys W V E) (k : JSKey) : Sys W V E :=
  match alookup k s.current with
  | none => s
  | some (id, out) =>
      workerTurn
        { s with
          current := adel k s.current
          log := s.log ++ [completionEv k id out] }
        k

/-- Scheduler events: a caller submits, or an in-flight operation settles.
Quantifying over event lists quantifies over all interleavings the
single-threaded host can produce. -/
inductive Ev (W V E : Type) where
  | submit (k : JSKey) (op : W → W × Except E V)
  | finish (k : JSKey)

def step (s : Sys W V E) : Ev W V E → Sys W V E
  | .submit k op => enqueue s k op
  | .finish k => finish s k

def initSys (w : W) : Sys W V E :=
  { queues := [], processing := [], current := [], nextId := 0, world := w, log := [] }

def run (w : W) (evs : List (Ev W V E)) : Sys W V E :=
  evs.foldl step (initSys w)

/-! ## Log projections -/

/-- Ids of the submissions recorded for key `k`, in submission order. -/
def subSel (k : JSKey) : LogEv V E → Option Nat
  | .enqueued k' id => if k' = k then some id else none
  | _ => none

def subIds (k : JSKey) (l : List (LogEv V E)) : List Nat :=
  l.filterMap (subSel k)

/-- Ids of the operations started for key `k`, in start order. -/
def startSel (k : JSKey) : LogEv V E → Option Nat
  | .opStart k' id _ => if k' = k then some id else none
  | _ => none

def startIds (k : JSKey) (l : List (LogEv V E)) : List Nat :=
  l.filterMap (startSel k)

/-- Ids of the completions (resolutions and rejections) for key `k`. -/
def doneSel (k : JSKey) : LogEv V E → Option Nat
  | .resolved k' id _ => if k' = k then some id else none
  | .rejected k' id _ => if k' = k then some id else none
  | _ => none

def doneIds (k : JSKey) (l : List (LogEv V E)) : List Nat :=
  l.filterMap (doneSel k)

/-- Worker-activity events for key `k`: `true` = worker start, `false` =
worker stop, in order of occurrence. -/
def workerSel (k : JSKey) : LogEv V E → Option Bool
  | .workerStart k' => if k' = k then some true else none
  | .workerStop k' => if k' = k then some false else none
  | _ => none

def workerEvs (k : JSKey) (l : List (LogEv V E)) : List Bool :=
  l.filterMap (workerSel k)

/-- The execution trace of key `k`: operation starts (with the outcome the
operation produced) and deliveries (with the delivered payload). -/
inductive KT (V E : Type) where
  | start (id : Nat) (out : Except E V)
  | done (id : Nat) (out : Except E V)
deriving DecidableEq

def ktSel (k : JSKey) : LogEv V E → Option (KT V E)
  | .opStart k' id out => if k' = k then some (.start id out) else none
  | .resolved k' id v => if k' = k then some (.done id (.ok v)) else none
  | .rejected k' id e => if k' = k then some (.done id (.error e)) else none
  | _ => none

def keyTrace (k : JSKey) (l : List (LogEv V E)) : List (KT V E) :=
  l.filterMap (ktSel k)

/-- Ids waiting in the backlog of key `k` (submitted, not yet started). -/
def backlogIds (k : JSKey) (s : Sys W V E) : List Nat :=
  ((alookup k s.queues).getD []).map Entry.id

/-! ## Alternation checkers

`altState` scans a key's execution trace left to right, tracking the
operation currently open (started, not yet delivered).  It returns `none`
when the trace is malformed: a start while an operation is open, a
delivery with no operation open, or a delivery whose id or payload differs
from the open operation's.  A trace with `altState = some st` is exactly
`start i₁ o₁, done i₁ o₁, start i₂ o₂, done i₂ o₂, …`, possibly ending
with an undelivered `start`, recorded in `st`. -/

def altStep [DecidableEq V] [DecidableEq E] :
    Option (Option (Nat × Except E V)) → KT V E → Option (Option (Nat × Except E V))
  | some none, .start id out => some (some (id, out))
  | some (some c), .done id out => if (id, out) = c then some none else none
  | _, _ => none

def altState [DecidableEq V] [DecidableEq E] (l : List (KT V E)) :
    Option (Option (Nat × Except E V)) :=
  l.foldl altStep (some none)

/-- Same idea for worker-activity events: starts and stops strictly
alternate, beginning with a start; the resulting `Bool` is whether a
worker is active after the trace. -/
def wStep : Option Bool → Bool → Option Bool
  | some false, true => some true
  | some true, false => some false
  | _, _ => none

def wAltState (l : List Bool) : Option Bool :=
  l.foldl wStep (some false)

/-! ## Association-list and set lemmas -/

theorem alookup_aset_self {α : Type _} (k : JSKey) (v : α) (m : List (JSKey × α)) :
    alookup k (aset k v m) = some v := by
  induction m with
  | nil => simp [aset, alookup]
  | cons p rest ih =>
      obtain ⟨a, b⟩ := p
      by_cases h : a = k
      · simp [aset, alookup, h]
      · simp [aset, alookup, h, ih]

theorem alookup_aset_ne {α : Type _} {k k' : JSKey} (h : k' ≠ k) (v : α)
    (m : List (JSKey × α)) : alookup k' (aset k v m) = alookup k' m := by
  induction m with
  | nil => simp [aset, alookup, Ne.symm h]
  | cons p rest ih =>
      obtain ⟨a, b⟩ := p
      by_cases hp : a = k
      · subst hp
        simp [aset, alookup, Ne.symm h]
      · simp [aset, alookup, hp, ih]

theorem alookup_adel_self {α : Type _} (k : JSKey) (m : List (JSKey × α)) :
    alookup k (adel k m) = none := by
  induction m with
  | nil => simp [adel, alookup]
  | cons p rest ih =>
      obtain ⟨a, b⟩ := p
      by_cases h : a = k
      · simp [adel, h, ih]
      · simp [adel, alookup, h, ih]

theorem alookup_adel_ne {α : Type _} {k k' : JSKey} (h : k' ≠ k)
    (m : List (JSKey × α)) : alookup k' (adel k m) = alookup k' m := by
  induction m with
  | nil => simp [adel]
  | cons p rest ih =>
      obtain ⟨a, b⟩ := p
      by_cases hp : a = k
      · subst hp
        simp [adel, alookup, Ne.symm h, ih]
      · simp [adel, alookup, hp, ih]

theorem smem_append (k : JSKey) (s t : List JSKey) :
    smem k (s ++ t) = (smem k s || smem k t) := by
  induction s with
  | nil => simp [smem]
  | cons a rest ih =>
      by_cases ha : a = k
      · simp [smem, ha]
      · simp [smem, ha, ih]

theorem smem_sadd_self (k : JSKey) (s : List JSKey) : smem k (sadd k s) = true := by
  unfold sadd
  by_cases h : smem k s
  · simp [h]
  · simp [h, smem_append, smem]

theorem smem_sadd_ne {k k' : JSKey} (h : k' ≠ k) (s : List JSKey) :
    smem k' (sadd k s) = smem k' s := by
  unfold sadd
  by_cases hm : smem k s
  · simp [hm]
  · simp [hm, smem_append, smem, Ne.symm h]

theorem smem_sdel_self (k : JSKey) (s : List JSKey) : smem k (sdel k s) = false := by
  induction s with
  | nil => simp [sdel, smem]
  | cons a rest ih =>
      by_cases ha : a = k
      · simp [sdel, ha, ih]
      · simp [sdel, smem, ha, ih]

theorem smem_sdel_ne {k k' : JSKey} (h : k' ≠ k) (s : List JSKey) :
    smem k' (sdel k s) = smem k' s := by
  induction s with
  | nil => simp [sdel]
  | cons a rest ih =>
      by_cases ha : a = k
      · subst ha
        simp [sdel, smem, Ne.symm h, ih]
      · simp [sdel, smem, ha, ih]

/-! ## Log projection lemmas -/

section Projections

variable {k k' : JSKey} {l l' : List (LogEv V E)} {id : Nat}

@[simp] theorem subIds_append : subIds k (l ++ l') = subIds k l ++ subIds k l' := by
  simp [subIds]

@[simp] theorem startIds_append : startIds k (l ++ l') = startIds k l ++ startIds k l' := by
  simp [startIds]

@[simp] theorem doneIds_append : doneIds k (l ++ l') = doneIds k l ++ doneIds k l' := by
  simp [doneIds]

@[simp] theorem workerEvs_append : workerEvs k (l ++ l') = workerEvs k l ++ workerEvs k l' := by
  simp [workerEvs]

@[simp] theorem keyTrace_append : keyTrace k (l ++ l') = keyTrace k l ++ keyTrace k l' := by
  simp [keyTrace]

@[simp] theorem subIds_nil : subIds k ([] : List (LogEv V E)) = [] := rfl
@[simp] theorem startIds_nil : startIds k ([] : List (LogEv V E)) = [] := rfl
@[simp] theorem doneIds_nil : doneIds k ([] : List (LogEv V E)) = [] := rfl
@[simp] theorem workerEvs_nil : workerEvs k ([] : List (LogEv V E)) = [] := rfl
@[simp] theorem keyTrace_nil : keyTrace k ([] : List (LogEv V E)) = [] := rfl

@[simp] theorem subIds_cons_enqueued :
    subIds k (LogEv.enqueued k' id :: l) = if k' = k then id :: subIds k l else subIds k l := by
  by_cases h : k' = k <;> simp [subIds, subSel, List.filterMap_cons, h]

@[simp] theorem subIds_cons_workerStart :
    subIds k (LogEv.workerStart k' :: l) = subIds k l := by
  simp [subIds, subSel, List.filterMap_cons]

@[simp] theorem subIds_cons_workerStop :
    subIds k (LogEv.workerStop k' :: l) = subIds k l := by
  simp [subIds, subSel, List.filterMap_cons]

@[simp] theorem subIds_cons_opStart {out : Except E V} :
    subIds k (LogEv.opStart k' id out :: l) = subIds k l := by
  simp [subIds, subSel, List.filterMap_cons]

@[simp] theorem subIds_cons_resolved {v : V} :
    subIds k (LogEv.resolved k' id v :: l) = subIds k l := by
  simp [subIds, subSel, List.filterMap_cons]

@[simp] theorem subIds_cons_rejected {e : E} :
    subIds k (LogEv.rejected k' id e :: l) = subIds k l := by
  simp [subIds, subSel, List.filterMap_cons]

@[simp] theorem startIds_cons_enqueued :
    startIds k (LogEv.enqueued k' id :: l) = startIds k l := by
  simp [startIds, startSel, List.filterMap_cons]

@[simp] theorem startIds_cons_workerStart :
    startIds k (LogEv.workerStart k' :: l) = startIds k l := by
  simp [startIds, startSel, List.filterMap_cons]

@[simp] theorem startIds_cons_workerStop :
    startIds k (LogEv.workerStop k' :: l) = startIds k l := by
  simp [startIds, startSel, List.filterMap_cons]

@[simp] theorem startIds_cons_opStart {out : Except E V} :
    startIds k (LogEv.opStart k' id out :: l) =
      if k' = k then id :: startIds k l else startIds k l := by
  by_cases h : k' = k <;> simp [startIds, startSel, List.filterMap_cons, h]

@[simp] theorem startIds_cons_resolved {v : V} :
    startIds k (LogEv.resolved k' id v :: l) = startIds k l := by
  simp [startIds, startSel, List.filterMap_cons]

@[simp] theorem startIds_cons_rejected {e : E} :
    startIds k (LogEv.rejected k' id e :: l) = startIds k l := by
  simp [startIds, startSel, List.filterMap_cons]

@[simp] theorem doneIds_cons_enqueued :
    doneIds k (LogEv.enqueued k' id :: l) = doneIds k l := by
  simp [doneIds, doneSel, List.filterMap_cons]

@[simp] theorem doneIds_cons_workerStart :
    doneIds k (LogEv.workerStart k' :: l) = doneIds k l := by
  simp [doneIds, doneSel, List.filterMap_cons]

@[simp] theorem doneIds_cons_workerStop :
    doneIds k (LogEv.workerStop k' :: l) = doneIds k l := by
  simp [doneIds, doneSel, List.filterMap_cons]

@[simp] theorem doneIds_cons_opStart {out : Except E V} :
    doneIds k (LogEv.opStart k' id out :: l) = doneIds k l := by
  simp [doneIds, doneSel, List.filterMap_cons]

@[simp] theorem doneIds_cons_resolved {v : V} :
    doneIds k (LogEv.resolved k' id v :: l) =
      if k' = k then id :: doneIds k l else doneIds k l := by
  by_cases h : k' = k <;> simp [doneIds, doneSel, List.filterMap_cons, h]

@[simp] theorem doneIds_cons_rejected {e : E} :
    doneIds k (LogEv.rejected k' id e :: l) =
      if k' = k then id :: doneIds k l else doneIds k l := by
  by_cases h : k' = k <;> simp [doneIds, doneSel, List.filterMap_cons, h]

@[simp] theorem workerEvs_cons_enqueued :
    workerEvs k (LogEv.enqueued k' id :: l) = workerEvs k l := by
  simp [workerEvs, workerSel, List.filterMap_cons]

@[simp] theorem workerEvs_cons_workerStart :
    workerEvs k (LogEv.workerStart k' :: l) =
      if k' = k then true :: workerEvs k l else workerEvs k l := by
  by_cases h : k' = k <;> simp [workerEvs, workerSel, List.filterMap_cons, h]

@[simp] theorem workerEvs_cons_workerStop :
    workerEvs k (LogEv.workerStop k' :: l) =
      if k' = k then false :: workerEvs k l else workerEvs k l := by
  by_cases h : k' = k <;> simp [workerEvs, workerSel, List.filterMap_cons, h]

@[simp] theorem workerEvs_cons_opStart {out : Except E V} :
    workerEvs k (LogEv.opStart k' id out :: l) = workerEvs k l := by
  simp [workerEvs, workerSel, List.filterMap_cons]

@[simp] theorem workerEvs_cons_resolved {v : V} :
    workerEvs k (LogEv.resolved k' id v :: l) = workerEvs k l := by
  simp [workerEvs, workerSel, List.filterMap_cons]

@[simp] theorem workerEvs_cons_rejected {e : E} :
    workerEvs k (LogEv.rejected k' id e :: l) = workerEvs k l := by
  simp [workerEvs, workerSel, List.filterMap_cons]

@[simp] theorem keyTrace_cons_enqueued :
    keyTrace k (LogEv.enqueued k' id :: l) = keyTrace k l := by
  simp [keyTrace, ktSel, List.filterMap_cons]

@[simp] theorem keyTrace_cons_workerStart :
    keyTrace k (LogEv.workerStart k' :: l) = keyTrace k l := by
  simp [keyTrace, ktSel, List.filterMap_cons]

@[simp] theorem keyTrace_cons_workerStop :
    keyTrace k (LogEv.workerStop k' :: l) = keyTrace k l := by
  simp [keyTrace, ktSel, List.filterMap_cons]

@[simp] theorem keyTrace_cons_opStart {out : Except E V} :
    keyTrace k (LogEv.opStart k' id out :: l) =
      if k' = k then KT.start id out :: keyTrace k l else keyTrace k l := by
  by_cases h : k' = k <;> simp [keyTrace, ktSel, List.filterMap_cons, h]

@[simp] theorem keyTrace_cons_resolved {v : V} :
    keyTrace k (LogEv.resolved k' id v :: l) =
      if k' = k then KT.done id (Except.ok v) :: keyTrace k l else keyTrace k l := by
  by_cases h : k' = k <;> simp [keyTrace, ktSel, List.filterMap_cons, h]

@[simp] theorem keyTrace_cons_rejected {e : E} :
    keyTrace k (LogEv.rejected k' id e :: l) =
      if k' = k then KT.done id (Except.error e) :: keyTrace k l else keyTrace k l := by
  by_cases h : k' = k <;> simp [keyTrace, ktSel, List.filterMap_cons, h]

@[simp] theorem keyTrace_cons_completionEv {out : Except E V} :
    keyTrace k (completionEv k' id out :: l) =
      if k' = k then KT.done id out :: keyTrace k l else keyTrace k l := by
  cases out <;> simp [completionEv]

@[simp] theorem subIds_cons_completionEv {out : Except E V} :
    subIds k (completionEv k' id out :: l) = subIds k l := by
  cases out <;> simp [completionEv]

@[simp] theorem startIds_cons_completionEv {out : Except E V} :
    startIds k (completionEv k' id out :: l) = startIds k l := by
  cases out <;> simp [completionEv]

@[simp] theorem doneIds_cons_completionEv {out : Except E V} :
    doneIds k (completionEv k' id out :: l) =
      if k' = k then id :: doneIds k l else doneIds k l := by
  cases out <;> simp [completionEv]

@[simp] theorem workerEvs_cons_completionEv {out : Except E V} :
    workerEvs k (completionEv k' id out :: l) = workerEvs k l := by
  cases out <;> simp [completionEv]

theorem altState_append [DecidableEq V] [DecidableEq E] (l l' : List (KT V E)) :
    altState (l ++ l') = l'.foldl altStep (altState l) := by
  simp [altState, List.foldl_append]

theorem wAltState_append (l l' : List Bool) :
    wAltState (l ++ l') = l'.foldl wStep (wAltState l) := by
  simp [wAltState, List.foldl_append]

end Projections

/-! ## Step-shape lemmas -/

section Shapes

variable {s : Sys W V E} {k k' : JSKey} {op : W → W × Except E V}

@[simp] theorem pushEntry_processing : (pushEntry s k op).processing = s.processing := rfl
@[simp] theorem pushEntry_current : (pushEntry s k op).current = s.current := rfl
@[simp] theorem pushEntry_nextId : (pushEntry s k op).nextId = s.nextId + 1 := rfl
@[simp] theorem pushEntry_world : (pushEntry s k op).world = s.world := rfl
@[simp] theorem pushEntry_log : (pushEntry s k op).log = s.log ++ [.enqueued k s.nextId] := rfl

theorem alookup_pushEntry_queues_self :
    alookup k (pushEntry s k op).queues =
      some (((alookup k s.queues).getD []) ++ [⟨s.nextId, op⟩]) := by
  unfold pushEntry
  cases hq : alookup k s.queues with
  | none => simp [hq, alookup_aset_self]
  | some q => simp [hq, alookup_aset_self]

theorem alookup_pushEntry_queues_ne (h : k' ≠ k) :
    alookup k' (pushEntry s k op).queues = alookup k' s.queues := by
  unfold pushEntry
  cases hq : alookup k s.queues with
  | none => simp [hq, alookup_aset_ne h]
  | some q => simp [hq, alookup_aset_ne h]

theorem enqueue_busy (h : smem k s.processing = true) :
    enqueue s k op = pushEntry s k op := by
  simp [enqueue, h]

theorem enqueue_idle (h : smem k s.processing = false) :
    enqueue s k op = workerStart (pushEntry s k op) k := by
  simp [enqueue, h]

variable {e : Entry W V E} {rest : List (Entry W V E)}

@[simp] theorem startOp_queues : (startOp s k e).queues = s.queues := rfl
@[simp] theorem startOp_processing : (startOp s k e).processing = s.processing := rfl
@[simp] theorem startOp_current : (startOp s k e).current = aset k (e.id, (e.op s.world).2) s.current := rfl
@[simp] theorem startOp_nextId : (startOp s k e).nextId = s.nextId := rfl
@[simp] theorem startOp_world : (startOp s k e).world = (e.op s.world).1 := rfl
@[simp] theorem startOp_log : (startOp s k e).log = s.log ++ [.opStart k e.id (e.op s.world).2] := rfl

theorem workerTurn_cons (h : alookup k s.queues = some (e :: rest)) :
    workerTurn s k = startOp { s with queues := aset k rest s.queues } k e := by
  simp [workerTurn, h]

theorem workerTurn_empty (h : (alookup k s.queues).getD [] = []) :
    workerTurn s k =
      { s with
        processing := sdel k s.processing
        queues := adel k s.queues
        log := s.log ++ [.workerStop k] } := by
  simp [workerTurn, h]

theorem workerStart_eq :
    workerStart s k =
      workerTurn
        { s with
          processing := sadd k s.processing
          log := s.log ++ [.workerStart k] }
        k := rfl

theorem workerStart_cons (e : Entry W V E) (rest : List (Entry W V E))
    (h : alookup k s.queues = some (e :: rest)) :
    workerStart s k =
      startOp
        { s with
          queues := aset k rest s.queues
          processing := sadd k s.processing
          log := s.log ++ [.workerStart k] }
        k e := by
  rw [workerStart_eq]
  exact workerTurn_cons h

theorem finish_none (h : alookup k s.current = none) : finish s k = s := by
  simp [finish, h]

theorem finish_some {id : Nat} {out : Except E V}
    (h : alookup k s.current = some (id, out)) :
    finish s k =
      workerTurn
        { s with
          current := adel k s.current
          log := s.log ++ [completionEv k id out] }
        k := by
  simp [finish, h]

/-- Delivery with a non-empty backlog: reject/resolve, then the loop
shifts and starts the next entry. -/
theorem finish_cons {id : Nat} {out : Except E V}
    (hc : alookup k s.current = some (id, out))
    (hq : alookup k s.queues = some (e :: rest)) :
    finish s k =
      startOp
        { s with
          queues := aset k rest s.queues
          current := adel k s.current
          log := s.log ++ [completionEv k id out] }
        k e := by
  rw [finish_some hc]
  exact workerTurn_cons hq

/-- Delivery with an empty backlog: reject/resolve, exit the loop,
deregister and delete the key. -/
theorem finish_last {id : Nat} {out : Except E V}
    (hc : alookup k s.current = some (id, out))
    (hq : (alookup k s.queues).getD [] = []) :
    finish s k =
      { s with
        processing := sdel k s.processing
        queues := adel k s.queues
        current := adel k s.current
        log := (s.log ++ [completionEv k id out]) ++ [.workerStop k] } := by
  rw [finish_some hc]
  exact workerTurn_empty hq

end Shapes

/-! ## The reachable-state invariant -/

section Invariant

variable [DecidableEq V] [DecidableEq E] {s : Sys W V E}

/-- Per-key invariant relating the state of key `k` to its instrumented
history.  Together these fields say: the backlog holds exactly the
submitted-but-not-started ids in submission order; starts happen in
submission order; completions happen in start order, one per start, with
the payload the operation produced; worker activity alternates
start/stop; the registry entry, the `processing` flag and the in-flight
entry exist simultaneously. -/
structure KeyInv (s : Sys W V E) (k : JSKey) : Prop where
  cur_proc : (alookup k s.current).isSome = smem k s.processing
  que_cur : (alookup k s.queues).isSome = (alookup k s.current).isSome
  sub_eq : subIds k s.log = startIds k s.log ++ backlogIds k s
  done_eq : startIds k s.log = doneIds k s.log ++ ((alookup k s.current).map Prod.fst).toList
  alt : altState (keyTrace k s.log) = some (alookup k s.current)
  walt : wAltState (workerEvs k s.log) = some (smem k s.processing)
  sub_lt : ∀ i ∈ subIds k s.log, i < s.nextId
  sub_chain : List.Chain' (· < ·) (subIds k s.log)

def Inv (s : Sys W V E) : Prop := ∀ k, KeyInv s k

theorem inv_initSys (w : W) : Inv (initSys (V := V) (E := E) w) := by
  intro k
  constructor <;> simp [initSys, alookup, smem, backlogIds, altState, wAltState]

theorem mem_of_mem_getLastQ {α : Type _} {l : List α} {x : α} (h : x ∈ l.getLast?) :
    x ∈ l := by
  obtain ⟨hne, rfl⟩ := List.mem_getLast?_eq_getLast h
  exact List.getLast_mem hne

theorem isSome_false_eq_none {α : Type _} {o : Option α} (h : o.isSome = false) :
    o = none := by
  cases o <;> simp_all

/-- Appending the next submission id keeps the per-key submission list
strictly increasing. -/
theorem chain_snoc {l : List Nat} {n : Nat} (hc : List.Chain' (· < ·) l)
    (hlt : ∀ i ∈ l, i < n) : List.Chain' (· < ·) (l ++ [n]) := by
  rw [List.chain'_append]
  refine ⟨hc, List.chain'_singleton n, ?_⟩
  intro x hx y hy
  simp only [List.head?_cons, Option.mem_def, Option.some.injEq] at hy
  subst hy
  exact hlt x (mem_of_mem_getLastQ hx)

theorem inv_enqueue (hinv : Inv s) (k : JSKey) (op : W → W × Except E V) :
    Inv (enqueue s k op) := by
  intro k'
  obtain ⟨cur_proc, que_cur, sub_eq, done_eq, alt, walt, sub_lt, sub_chain⟩ := hinv k'
  by_cases hk : k' = k
  · subst hk
    by_cases hb : smem k' s.processing
    · -- a worker is already active for the key: only push the record
      rw [enqueue_busy hb]
      have hc : (alookup k' s.current).isSome = true := by rw [cur_proc]; exact hb
      have hq : (alookup k' s.queues).isSome = true := by rw [que_cur]; exact hc
      refine ⟨?_, ?_, ?_, ?_, ?_, ?_, ?_, ?_⟩
      · simpa using cur_proc
      · simp [alookup_pushEntry_queues_self]
        exact hc
      · simp only [pushEntry_log, subIds_append, subIds_cons_enqueued, if_pos rfl, subIds_nil,
          startIds_append, startIds_cons_enqueued, startIds_nil,
          backlogIds, alookup_pushEntry_queues_self, Option.getD_some, List.map_append,
          List.map_cons, List.map_nil]
        rw [sub_eq]
        simp [backlogIds, List.append_assoc]
      · simpa using done_eq
      · simpa using alt
      · simpa using walt
      · simp only [pushEntry_log, pushEntry_nextId, subIds_append, List.mem_append]
        rintro i (hi | hi)
        · exact Nat.lt_succ_of_lt (sub_lt i hi)
        · simp at hi
          omega
      · simp only [pushEntry_log, subIds_append]
        simp only [subIds_cons_enqueued, if_pos rfl, subIds_nil]
        exact chain_snoc sub_chain sub_lt
    · -- no worker active: push, then processQueue runs to the first await
      rw [enqueue_idle (by simpa using hb)]
      have hb' : smem k' s.processing = false := by simpa using hb
      have hc : alookup k' s.current = none :=
        isSome_false_eq_none (by rw [cur_proc]; exact hb')
      have hq : alookup k' s.queues = none :=
        isSome_false_eq_none (by rw [que_cur, hc]; rfl)
      rw [workerStart_cons ⟨s.nextId, op⟩ []
        (by rw [alookup_pushEntry_queues_self, hq]; rfl)]
      refine ⟨?_, ?_, ?_, ?_, ?_, ?_, ?_, ?_⟩
      · simp [alookup_aset_self, smem_sadd_self]
      · simp [alookup_aset_self]
      · simp only [backlogIds, hq, Option.getD_none, List.map_nil, List.append_nil] at sub_eq
        simp [backlogIds, alookup_aset_self, sub_eq]
      · simp only [hc, Option.map_none', Option.toList_none, List.append_nil] at done_eq
        simp [alookup_aset_self, done_eq]
      · simp only [startOp_log] at *
        simp [altState_append, alt, hc, altStep, alookup_aset_self]
      · simp [wAltState_append, walt, hb', wStep, smem_sadd_self]
      · simp only [startOp_log, startOp_nextId, pushEntry_log, pushEntry_nextId,
          List.append_assoc, subIds_append, List.mem_append]
        rintro i (hi | hi)
        · exact Nat.lt_succ_of_lt (sub_lt i hi)
        · simp at hi
          omega
      · simp only [startOp_log, pushEntry_log, List.append_assoc, subIds_append]
        simp only [subIds_cons_enqueued, if_pos rfl, subIds_nil, subIds_cons_workerStart,
          subIds_cons_opStart, List.append_nil]
        exact chain_snoc sub_chain sub_lt
  · -- a different key: nothing about k' changes
    have hne : k' ≠ k := hk
    by_cases hb : smem k s.processing
    · rw [enqueue_busy hb]
      refine ⟨?_, ?_, ?_, ?_, ?_, ?_, ?_, ?_⟩
      · simpa using cur_proc
      · simp [alookup_pushEntry_queues_ne hne]
        rw [← que_cur]
      · simp [backlogIds, alookup_pushEntry_queues_ne hne, Ne.symm hne]
        simpa [backlogIds] using sub_eq
      · simpa using done_eq
      · simpa using alt
      · simpa using walt
      · simp only [pushEntry_log, pushEntry_nextId, subIds_append, List.mem_append]
        simp only [subIds_cons_enqueued, if_neg hne.symm, subIds_nil]  -- k' ≠ k
        rintro i (hi | hi)
        · exact Nat.lt_succ_of_lt (sub_lt i hi)
        · simp at hi
      · simp only [pushEntry_log, subIds_append]
        simp only [subIds_cons_enqueued, if_neg hne.symm, subIds_nil, List.append_nil]
        exact sub_chain
    · rw [enqueue_idle (by simpa using hb)]
      -- shape of the worker start for key k
      have hbk : smem k s.processing = false := by simpa using hb
      have hck : alookup k s.current = none :=
        isSome_false_eq_none (by rw [(hinv k).cur_proc]; exact hbk)
      have hqk : alookup k s.queues = none :=
        isSome_false_eq_none (by rw [(hinv k).que_cur, hck]; rfl)
      rw [workerStart_cons ⟨s.nextId, op⟩ []
        (by rw [alookup_pushEntry_queues_self, hqk]; rfl)]
      refine ⟨?_, ?_, ?_, ?_, ?_, ?_, ?_, ?_⟩
      · simp [alookup_aset_ne hne, smem_sadd_ne hne]
        exact cur_proc
      · simp [alookup_aset_ne hne, alookup_pushEntry_queues_ne hne]
        rw [← que_cur]
      · simp [backlogIds, alookup_aset_ne hne, alookup_pushEntry_queues_ne hne, Ne.symm hne]
        simpa [backlogIds] using sub_eq
      · simp [alookup_aset_ne hne, Ne.symm hne]
        exact done_eq
      · simp [altState_append, Ne.symm hne, alookup_aset_ne hne]
        exact alt
      · simp [wAltState_append, Ne.symm hne, smem_sadd_ne hne]
        exact walt
      · simp only [startOp_log, startOp_nextId, pushEntry_log, pushEntry_nextId,
          List.append_assoc, subIds_append, List.mem_append]
        simp only [subIds_cons_enqueued, if_neg hne.symm, subIds_nil, subIds_cons_workerStart,
          subIds_cons_opStart, List.append_nil]
        rintro i (hi | hi)
        · exact Nat.lt_succ_of_lt (sub_lt i hi)
        · simp at hi
      · simp only [startOp_log, pushEntry_log, List.append_assoc, subIds_append]
        simp only [subIds_cons_enqueued, if_neg hne.symm, subIds_nil, subIds_cons_workerStart,
          subIds_cons_opStart, List.append_nil]
        exact sub_chain

theorem inv_finish (hinv : Inv s) (k : JSKey) : Inv (finish s k) := by
  intro k'
  obtain ⟨cur_proc, que_cur, sub_eq, done_eq, alt, walt, sub_lt, sub_chain⟩ := hinv k'
  cases hc : alookup k s.current with
  | none =>
      rw [finish_none hc]
      exact hinv k'
  | some p =>
      obtain ⟨id, out⟩ := p
      have hcs : (alookup k s.current).isSome = true := by rw [hc]; rfl
      have hpk : smem k s.processing = true := by rw [← (hinv k).cur_proc]; exact hcs
      obtain ⟨q, hq⟩ : ∃ q, alookup k s.queues = some q := by
        have h1 : (alookup k s.queues).isSome = true := by rw [(hinv k).que_cur]; exact hcs
        cases hq : alookup k s.queues with
        | none => rw [hq] at h1; cases h1
        | some q => exact ⟨q, rfl⟩
      cases q with
      | nil =>
          -- the backlog is empty: deliver, deregister, delete
          rw [finish_last hc (by rw [hq]; rfl)]
          by_cases hk : k' = k
          · subst hk
            have hbl : backlogIds k' s = [] := by simp [backlogIds, hq]
            refine ⟨?_, ?_, ?_, ?_, ?_, ?_, ?_, ?_⟩
            · simp [alookup_adel_self, smem_sdel_self]
            · simp [alookup_adel_self]
            · simp only [hbl, List.append_nil] at sub_eq
              simp [backlogIds, alookup_adel_self, sub_eq]
            · simp only [hc, Option.map_some', Option.toList_some] at done_eq
              simp [alookup_adel_self, done_eq]
            · simp [altState_append, alt, hc, altStep, alookup_adel_self]
            · simp [wAltState_append, walt, hpk, wStep, smem_sdel_self]
            · simpa using sub_lt
            · simpa using sub_chain
          · have hne : k' ≠ k := hk
            refine ⟨?_, ?_, ?_, ?_, ?_, ?_, ?_, ?_⟩
            · simp [alookup_adel_ne hne, smem_sdel_ne hne]
              exact cur_proc
            · simp [alookup_adel_ne hne]
              exact que_cur
            · simp [backlogIds, alookup_adel_ne hne, Ne.symm hne]
              simpa [backlogIds] using sub_eq
            · simp [alookup_adel_ne hne, Ne.symm hne]
              exact done_eq
            · simp [altState_append, Ne.symm hne, alookup_adel_ne hne]
              exact alt
            · simp [wAltState_append, Ne.symm hne, smem_sdel_ne hne]
              exact walt
            · simpa using sub_lt
            · simpa using sub_chain
      | cons e rest =>
          -- deliver, then shift and start the next entry
          rw [finish_cons hc hq]
          by_cases hk : k' = k
          · subst hk
            refine ⟨?_, ?_, ?_, ?_, ?_, ?_, ?_, ?_⟩
            · simp [alookup_aset_self, hpk]
            · simp [alookup_aset_self]
            · simp only [backlogIds, hq, Option.getD_some, List.map_cons] at sub_eq
              simp [backlogIds, alookup_aset_self, sub_eq]
            · simp only [hc, Option.map_some', Option.toList_some] at done_eq
              simp [alookup_aset_self, done_eq]
            · simp [altState_append, alt, hc, altStep, alookup_aset_self]
            · simp [wAltState_append, walt]
            · simpa using sub_lt
            · simpa using sub_chain
          · have hne : k' ≠ k := hk
            refine ⟨?_, ?_, ?_, ?_, ?_, ?_, ?_, ?_⟩
            · simp [alookup_aset_ne hne, alookup_adel_ne hne]
              exact cur_proc
            · simp [alookup_aset_ne hne, alookup_adel_ne hne]
              exact que_cur
            · simp [backlogIds, alookup_aset_ne hne, alookup_adel_ne hne, Ne.symm hne]
              simpa [backlogIds] using sub_eq
            · simp [alookup_aset_ne hne, alookup_adel_ne hne, Ne.symm hne]
              exact done_eq
            · simp [altState_append, Ne.symm hne, alookup_aset_ne hne, alookup_adel_ne hne]
              exact alt
            · simp [wAltState_append, Ne.symm hne]
              exact walt
            · simpa using sub_lt
            · simpa using sub_chain

theorem inv_step (hinv : Inv s) (ev : Ev W V E) : Inv (step s ev) := by
  cases ev with
  | submit k op => exact inv_enqueue hinv k op
  | finish k => exact inv_finish hinv k

theorem inv_foldl (s : Sys W V E) (hinv : Inv s) (evs : List (Ev W V E)) :
    Inv (evs.foldl step s) := by
  induction evs generalizing s with
  | nil => exact hinv
  | cons ev rest ih => exact ih _ (inv_step hinv ev)

/-- Every state reachable from the initial state satisfies the invariant. -/
theorem inv_run (w : W) (evs : List (Ev W V E)) : Inv (run w evs) :=
  inv_foldl _ (inv_initSys w) evs

end Invariant

/-! ## Frame and step-effect helper lemmas -/

section Helpers

variable {s : Sys W V E} {k k' : JSKey} {op : W → W × Except E V}

theorem adel_aset {α : Type _} (k : JSKey) (v : α) (m : List (JSKey × α)) :
    adel k (aset k v m) = adel k m := by
  induction m with
  | nil => simp [aset, adel]
  | cons p rest ih =>
      obtain ⟨a, b⟩ := p
      by_cases h : a = k
      · simp [aset, adel, h]
      · simp [aset, adel, h, ih]

theorem chain_lt_nodup {l : List Nat} (h : List.Chain' (· < ·) l) : l.Nodup :=
  (List.chain'_iff_pairwise.mp h).nodup

/-- `enqueue` acting on key `k` leaves every other key's queue state,
worker state, in-flight entry and instrumented history untouched. -/
theorem enqueue_frame (hne : k' ≠ k) (s : Sys W V E) (op : W → W × Except E V) :
    alookup k' (enqueue s k op).queues = alookup k' s.queues ∧
    alookup k' (enqueue s k op).current = alookup k' s.current ∧
    smem k' (enqueue s k op).processing = smem k' s.processing ∧
    subIds k' (enqueue s k op).log = subIds k' s.log ∧
    startIds k' (enqueue s k op).log = startIds k' s.log ∧
    doneIds k' (enqueue s k op).log = doneIds k' s.log ∧
    keyTrace k' (enqueue s k op).log = keyTrace k' s.log ∧
    workerEvs k' (enqueue s k op).log = workerEvs k' s.log := by
  by_cases hb : smem k s.processing
  · rw [enqueue_busy hb]
    refine ⟨alookup_pushEntry_queues_ne hne, ?_⟩
    simp [Ne.symm hne]
  · rw [enqueue_idle (by simpa using hb)]
    cases hg : (alookup k s.queues).getD [] with
    | nil =>
        rw [workerStart_cons ⟨s.nextId, op⟩ []
          (by rw [alookup_pushEntry_queues_self, hg]; rfl)]
        refine ⟨?_, ?_⟩
        · simp [alookup_aset_ne hne, alookup_pushEntry_queues_ne hne]
        · simp [alookup_aset_ne hne, smem_sadd_ne hne, Ne.symm hne]
    | cons e rest =>
        rw [workerStart_cons e (rest ++ [⟨s.nextId, op⟩])
          (by rw [alookup_pushEntry_queues_self, hg]; rfl)]
        refine ⟨?_, ?_⟩
        · simp [alookup_aset_ne hne, alookup_pushEntry_queues_ne hne]
        · simp [alookup_aset_ne hne, smem_sadd_ne hne, Ne.symm hne]

/-- `finish` acting on key `k` leaves every other key's queue state,
worker state, in-flight entry and instrumented history untouched. -/
theorem finish_frame (hne : k' ≠ k) (s : Sys W V E) :
    alookup k' (finish s k).queues = alookup k' s.queues ∧
    alookup k' (finish s k).current = alookup k' s.current ∧
    smem k' (finish s k).processing = smem k' s.processing ∧
    subIds k' (finish s k).log = subIds k' s.log ∧
    startIds k' (finish s k).log = startIds k' s.log ∧
    doneIds k' (finish s k).log = doneIds k' s.log ∧
    keyTrace k' (finish s k).log = keyTrace k' s.log ∧
    workerEvs k' (finish s k).log = workerEvs k' s.log := by
  cases hc : alookup k s.current with
  | none => rw [finish_none hc]; simp
  | some p =>
      obtain ⟨id, out⟩ := p
      cases hq : alookup k s.queues with
      | none =>
          rw [finish_last hc (by rw [hq]; rfl)]
          simp [alookup_adel_ne hne, smem_sdel_ne hne, Ne.symm hne]
      | some q =>
          cases q with
          | nil =>
              rw [finish_last hc (by rw [hq]; rfl)]
              simp [alookup_adel_ne hne, smem_sdel_ne hne, Ne.symm hne]
          | cons e rest =>
              rw [finish_cons hc hq]
              simp [alookup_aset_ne hne, alookup_adel_ne hne, Ne.symm hne]

/-- `enqueue` records exactly one submission, for the submitted key, and
completes nothing. -/
theorem subIds_enqueue (t : JSKey) :
    subIds t (enqueue s k op).log =
      subIds t s.log ++ (if k = t then [s.nextId] else []) := by
  by_cases hb : smem k s.processing
  · rw [enqueue_busy hb]
    by_cases ht : k = t <;> simp [ht]
  · rw [enqueue_idle (by simpa using hb)]
    cases hg : (alookup k s.queues).getD [] with
    | nil =>
        rw [workerStart_cons ⟨s.nextId, op⟩ []
          (by rw [alookup_pushEntry_queues_self, hg]; rfl)]
        by_cases ht : k = t <;> simp [ht]
    | cons e rest =>
        rw [workerStart_cons e (rest ++ [⟨s.nextId, op⟩])
          (by rw [alookup_pushEntry_queues_self, hg]; rfl)]
        by_cases ht : k = t <;> simp [ht]

theorem doneIds_enqueue (t : JSKey) :
    doneIds t (enqueue s k op).log = doneIds t s.log := by
  by_cases hb : smem k s.processing
  · rw [enqueue_busy hb]
    simp
  · rw [enqueue_idle (by simpa using hb)]
    cases hg : (alookup k s.queues).getD [] with
    | nil =>
        rw [workerStart_cons ⟨s.nextId, op⟩ []
          (by rw [alookup_pushEntry_queues_self, hg]; rfl)]
        simp
    | cons e rest =>
        rw [workerStart_cons e (rest ++ [⟨s.nextId, op⟩])
          (by rw [alookup_pushEntry_queues_self, hg]; rfl)]
        simp

theorem subIds_finish (t : JSKey) : subIds t (finish s k).log = subIds t s.log := by
  cases hc : alookup k s.current with
  | none => rw [finish_none hc]
  | some p =>
      obtain ⟨id, out⟩ := p
      cases hq : alookup k s.queues with
      | none => rw [finish_last hc (by rw [hq]; rfl)]; simp
      | some q =>
          cases q with
          | nil => rw [finish_last hc (by rw [hq]; rfl)]; simp
          | cons e rest => rw [finish_cons hc hq]; simp

theorem enqueue_nextId : (enqueue s k op).nextId = s.nextId + 1 := by
  by_cases hb : smem k s.processing
  · rw [enqueue_busy hb]
    rfl
  · rw [enqueue_idle (by simpa using hb)]
    cases hg : (alookup k s.queues).getD [] with
    | nil =>
        rw [workerStart_cons ⟨s.nextId, op⟩ []
          (by rw [alookup_pushEntry_queues_self, hg]; rfl)]
        rfl
    | cons e rest =>
        rw [workerStart_cons e (rest ++ [⟨s.nextId, op⟩])
          (by rw [alookup_pushEntry_queues_self, hg]; rfl)]
        rfl

end Helpers

/-! ## Concrete keys and operations for scenario runs -/

def kA : JSKey := .str "a"
def kB : JSKey := .str "b"
def kC : JSKey := .str "c"

/-- A test operation that succeeds with value `n` and has no world effect. -/
def okOp (n : Nat) : Unit → Unit × Except Nat Nat := fun u => (u, .ok n)

/-- A test operation that fails with error value `n`. -/
def errOp (n : Nat) : Unit → Unit × Except Nat Nat := fun u => (u, .error n)

/-! ## Claims -/

/-- C1: for every key and every schedule, the operations started for that
key are exactly an initial segment of the operations submitted for it, in
identical order (FIFO, no reordering, no priority, no skipping); and the
key's execution trace strictly alternates `start id — complete id`, so for
`i < j` the `i`-th operation's completion precedes the `j`-th operation's
start. -/
theorem claim_C1_fifo_per_key {W V E : Type} [DecidableEq V] [DecidableEq E]
    (w : W) (evs : List (Ev W V E)) (k : JSKey) :
    (∃ t, startIds k (run w evs).log ++ t = subIds k (run w evs).log) ∧
    altState (keyTrace k (run w evs).log) = some (alookup k (run w evs).current) := by
  obtain ⟨cp, qc, sub_eq, de, alt, wa, sl, sc⟩ := inv_run w evs k
  exact ⟨⟨backlogIds k (run w evs), sub_eq.symm⟩, alt⟩

/-- C2: for every key and every schedule, the worker start/stop events for
that key strictly alternate (no two worker-active intervals overlap, so at
most one worker is active per key at any instant); moreover `enqueue` on a
key whose `processing` flag is set starts no worker at all. -/
theorem claim_C2_single_worker {W V E : Type} [DecidableEq V] [DecidableEq E]
    (w : W) (evs : List (Ev W V E)) (k : JSKey) :
    wAltState (workerEvs k (run w evs).log) = some (smem k (run w evs).processing) ∧
    (∀ (s : Sys W V E) (op : W → W × Except E V), smem k s.processing = true →
      workerEvs k (enqueue s k op).log = workerEvs k s.log ∧
      (enqueue s k op).processing = s.processing) := by
  refine ⟨(inv_run w evs k).walt, ?_⟩
  intro s op hb
  rw [enqueue_busy hb]
  simp

theorem claim_C2_single_worker_witness :
    smem kA (run () [Ev.submit kA (okOp 7)]).processing = true ∧
    workerEvs kA (enqueue (run () [Ev.submit kA (okOp 7)]) kA (okOp 8)).log =
      workerEvs kA (run () [Ev.submit kA (okOp 7)]).log := by
  refine ⟨by rfl, ?_⟩
  exact ((claim_C2_single_worker () [Ev.submit kA (okOp 7)] kA).2 _ (okOp 8) (by rfl)).1

/-- C3: every completion handle is resolved at most once (the completion
ids for a key never repeat, and a single completion event carries either a
resolution or a rejection, never both); when the key has fully drained
(its registry entry is gone) every submitted operation has been completed
exactly once; each completion's payload is exactly the outcome its
operation produced (the alternation check matches ids *and* payloads); and
the delivery step appends precisely `resolve(result)` respectively
`reject(error)` with the stored outcome, untransformed. -/
theorem claim_C3_resolve_exactly_once {W V E : Type} [DecidableEq V] [DecidableEq E]
    (w : W) (evs : List (Ev W V E)) (k : JSKey) :
    (doneIds k (run w evs).log).Nodup ∧
    altState (keyTrace k (run w evs).log) = some (alookup k (run w evs).current) ∧
    (alookup k (run w evs).queues = none →
      doneIds k (run w evs).log = subIds k (run w evs).log) ∧
    (∀ (s : Sys W V E) (id : Nat) (out : Except E V),
      alookup k s.current = some (id, out) →
      ∃ t, (finish s k).log = s.log ++ completionEv k id out :: t) := by
  obtain ⟨cp, qc, sub_eq, done_eq, alt, wa, sl, sc⟩ := inv_run w evs k
  refine ⟨?_, alt, ?_, ?_⟩
  · have h1 : subIds k (run w evs).log =
        (doneIds k (run w evs).log ++
          ((alookup k (run w evs).current).map Prod.fst).toList)
          ++ backlogIds k (run w evs) := by rw [← done_eq, ← sub_eq]
    have hnd : (subIds k (run w evs).log).Nodup := chain_lt_nodup sc
    rw [h1] at hnd
    exact hnd.of_append_left.of_append_left
  · intro hq
    have hcur : alookup k (run w evs).current = none := by
      refine isSome_false_eq_none ?_
      rw [← qc, hq]
      rfl
    have hbl : backlogIds k (run w evs) = [] := by simp [backlogIds, hq]
    rw [sub_eq, done_eq, hcur, hbl]
    simp
  · intro s id out hc
    cases hq : alookup k s.queues with
    | none =>
        rw [finish_last hc (by rw [hq]; rfl)]
        exact ⟨[.workerStop k], by simp⟩
    | some q =>
        cases q with
        | nil =>
            rw [finish_last hc (by rw [hq]; rfl)]
            exact ⟨[.workerStop k], by simp⟩
        | cons e rest =>
            rw [finish_cons hc hq]
            exact ⟨[.opStart k e.id (e.op s.world).2], by simp⟩

theorem claim_C3_resolve_exactly_once_witness :
    doneIds kA (run () [Ev.submit kA (okOp 7), Ev.finish kA]).log =
      subIds kA (run () [Ev.submit kA (okOp 7), Ev.finish kA]).log ∧
    (∃ t, (finish (run () [Ev.submit kA (errOp 3)]) kA).log =
      (run () [Ev.submit kA (errOp 3)]).log ++ completionEv kA 0 (.error 3) :: t) := by
  constructor
  · exact (claim_C3_resolve_exactly_once () [Ev.submit kA (okOp 7), Ev.finish kA] kA).2.2.1
      (by rfl)
  · exact (claim_C3_resolve_exactly_once () [Ev.submit kA (errOp 3)] kA).2.2.2 _ 0
      (.error 3) (by rfl)

/-- C5: at every point between atomic steps, a key has a registry (Map)
entry iff its backlog is non-empty or a worker is executing an entry for
it; and as soon as the in-flight entry completes with an empty backlog,
the worker exits and the key's registry entry and `processing` flag are
removed. -/
theorem claim_C5_registry_iff_active {W V E : Type} [DecidableEq V] [DecidableEq E]
    (w : W) (evs : List (Ev W V E)) (k : JSKey) :
    ((alookup k (run w evs).queues).isSome = true ↔
      backlogIds k (run w evs) ≠ [] ∨
        (alookup k (run w evs).current).isSome = true) ∧
    (∀ (s : Sys W V E) (id : Nat) (out : Except E V),
      alookup k s.current = some (id, out) → alookup k s.queues = some [] →
      alookup k (finish s k).queues = none ∧
        smem k (finish s k).processing = false) := by
  obtain ⟨cp, qc, sub_eq, de, alt, wa, sl, sc⟩ := inv_run w evs k
  constructor
  · constructor
    · intro h
      right
      rw [← qc]
      exact h
    · rintro (h | h)
      · by_contra hq
        have hnone : alookup k (run w evs).queues = none := by
          refine isSome_false_eq_none ?_
          cases hv : (alookup k (run w evs).queues).isSome
          · rfl
          · exact absurd hv hq
        exact h (by simp [backlogIds, hnone])
      · rw [qc]
        exact h
  · intro s id out hc hq
    rw [finish_last hc (by rw [hq]; rfl)]
    exact ⟨by simp [alookup_adel_self], by simp [smem_sdel_self]⟩

theorem claim_C5_registry_iff_active_witness :
    alookup kA (finish (run () [Ev.submit kA (okOp 7)]) kA).queues = none ∧
    smem kA (finish (run () [Ev.submit kA (okOp 7)]) kA).processing = false :=
  (claim_C5_registry_iff_active () [Ev.submit kA (okOp 7)] kA).2 _ 0 (.ok 7)
    (by rfl) (by rfl)

/-- C4: when the in-flight operation for a key fails, the worker rejects
exactly that entry's handle with exactly the thrown error and continues:
(1) the delivery step emits one rejection for this id and no other
completion; (2) with a non-empty backlog the next entry is started in the
same step, so the loop never terminates because of the failure; (3) the
worker's control state after the step (queues, processing flag, in-flight
entry, starts, worker events) is identical to what it would be had the
operation succeeded instead; (4) no state or history of any other key is
affected. -/
theorem claim_C4_error_isolation {W V E : Type} [DecidableEq V] [DecidableEq E]
    (s : Sys W V E) (k : JSKey) (id : Nat) (err : E)
    (hc : alookup k s.current = some (id, Except.error err)) :
    (∃ t, (finish s k).log = s.log ++ LogEv.rejected k id err :: t ∧
      doneIds k (LogEv.rejected k id err :: t) = [id]) ∧
    (∀ (e : Entry W V E) (rest : List (Entry W V E)),
      alookup k s.queues = some (e :: rest) →
      alookup k (finish s k).current = some (e.id, (e.op s.world).2) ∧
      alookup k (finish s k).queues = some rest ∧
      startIds k (finish s k).log = startIds k s.log ++ [e.id]) ∧
    (∀ (o : Except E V),
      (finish { s with current := aset k (id, o) s.current } k).queues =
        (finish s k).queues ∧
      (finish { s with current := aset k (id, o) s.current } k).processing =
        (finish s k).processing ∧
      (finish { s with current := aset k (id, o) s.current } k).current =
        (finish s k).current ∧
      startIds k (finish { s with current := aset k (id, o) s.current } k).log =
        startIds k (finish s k).log ∧
      workerEvs k (finish { s with current := aset k (id, o) s.current } k).log =
        workerEvs k (finish s k).log) ∧
    (∀ k', k' ≠ k →
      alookup k' (finish s k).queues = alookup k' s.queues ∧
      alookup k' (finish s k).current = alookup k' s.current ∧
      smem k' (finish s k).processing = smem k' s.processing ∧
      keyTrace k' (finish s k).log = keyTrace k' s.log) := by
  have hce : completionEv k id (Except.error err : Except E V) = LogEv.rejected k id err := rfl
  refine ⟨?_, ?_, ?_, ?_⟩
  · cases hq : alookup k s.queues with
    | none =>
        rw [finish_last hc (by rw [hq]; rfl)]
        exact ⟨[.workerStop k], by simp [hce], by simp⟩
    | some q =>
        cases q with
        | nil =>
            rw [finish_last hc (by rw [hq]; rfl)]
            exact ⟨[.workerStop k], by simp [hce], by simp⟩
        | cons e rest =>
            rw [finish_cons hc hq]
            exact ⟨[.opStart k e.id (e.op s.world).2], by simp [hce], by simp⟩
  · intro e rest hq
    rw [finish_cons hc hq]
    refine ⟨by simp [alookup_aset_self], by simp [alookup_aset_self], by simp⟩
  · intro o
    have hc' : alookup k ({ s with current := aset k (id, o) s.current } : Sys W V E).current
        = some (id, o) := alookup_aset_self ..
    cases hq : alookup k s.queues with
    | none =>
        rw [finish_last hc (by rw [hq]; rfl), finish_last hc' (by rw [hq]; rfl)]
        refine ⟨rfl, rfl, by simp [adel_aset], by simp, by simp⟩
    | some q =>
        cases q with
        | nil =>
            rw [finish_last hc (by rw [hq]; rfl), finish_last hc' (by rw [hq]; rfl)]
            refine ⟨rfl, rfl, by simp [adel_aset], by simp, by simp⟩
        | cons e rest =>
            rw [finish_cons hc hq, finish_cons hc' hq]
            refine ⟨rfl, rfl, by simp [adel_aset], by simp, by simp⟩
  · intro k' hne
    obtain ⟨h1, h2, h3, _, _, _, h7, _⟩ := finish_frame hne s
    exact ⟨h1, h2, h3, h7⟩

theorem claim_C4_error_isolation_witness :
    (∃ t, (finish (run () [Ev.submit kA (errOp 3), Ev.submit kA (okOp 9)]) kA).log =
      (run () [Ev.submit kA (errOp 3), Ev.submit kA (okOp 9)]).log ++
        LogEv.rejected kA 0 3 :: t ∧
      doneIds kA (LogEv.rejected kA 0 3 :: t) = [0]) ∧
    alookup kA (finish (run () [Ev.submit kA (errOp 3), Ev.submit kA (okOp 9)]) kA).current =
      some (1, Except.ok 9) := by
  constructor
  · exact (claim_C4_error_isolation
      (run () [Ev.submit kA (errOp 3), Ev.submit kA (okOp 9)]) kA 0 3 (by rfl)).1
  · exact ((claim_C4_error_isolation
      (run () [Ev.submit kA (errOp 3), Ev.submit kA (okOp 9)]) kA 0 3 (by rfl)).2.1
      ⟨1, okOp 9⟩ [] (by rfl)).1

/-- C6: once a key has drained (no registry entry, no `processing` flag,
nothing in flight), a new submission behaves exactly like a first-ever
submission: the state transitions and appended history are the ones a
fresh system with the same world and id counter would produce — no
residual state of the earlier generation remains. -/
theorem claim_C6_drained_key_fresh {W V E : Type} [DecidableEq V] [DecidableEq E]
    (s : Sys W V E) (k : JSKey) (op : W → W × Except E V)
    (hq : alookup k s.queues = none) (hp : smem k s.processing = false)
    (hc : alookup k s.current = none) :
    alookup k (enqueue s k op).queues = some [] ∧
    smem k (enqueue s k op).processing = true ∧
    alookup k (enqueue s k op).current = some (s.nextId, (op s.world).2) ∧
    (enqueue s k op).log = s.log ++
      [.enqueued k s.nextId, .workerStart k, .opStart k s.nextId (op s.world).2] ∧
    (enqueue { initSys s.world with nextId := s.nextId } k op).log =
      [.enqueued k s.nextId, .workerStart k, .opStart k s.nextId (op s.world).2] ∧
    alookup k (enqueue { initSys s.world with nextId := s.nextId } k op).queues =
      alookup k (enqueue s k op).queues ∧
    smem k (enqueue { initSys s.world with nextId := s.nextId } k op).processing =
      smem k (enqueue s k op).processing ∧
    alookup k (enqueue { initSys s.world with nextId := s.nextId } k op).current =
      alookup k (enqueue s k op).current := by
  have hfq : alookup k ({ initSys s.world with nextId := s.nextId } : Sys W V E).queues
      = none := rfl
  have hfp : smem k ({ initSys s.world with nextId := s.nextId } : Sys W V E).processing
      = false := rfl
  rw [enqueue_idle hp, workerStart_cons ⟨s.nextId, op⟩ []
    (by rw [alookup_pushEntry_queues_self, hq]; rfl)]
  rw [enqueue_idle hfp, workerStart_cons ⟨s.nextId, op⟩ []
    (by rw [alookup_pushEntry_queues_self, hfq]; rfl)]
  refine ⟨by simp [alookup_aset_self], by simp [smem_sadd_self],
    by simp [alookup_aset_self], by simp, ?_, ?_, ?_, ?_⟩
  · simp [initSys]
  · simp [alookup_aset_self]
  · simp [smem_sadd_self]
  · simp [alookup_aset_self, initSys]

theorem claim_C6_drained_key_fresh_witness :
    alookup kA (enqueue
      (run () [Ev.submit kA (okOp 1), Ev.submit kA (okOp 2), Ev.finish kA, Ev.finish kA])
      kA (okOp 3)).current = some (2, Except.ok 3) ∧
    (run () [Ev.submit kA (okOp 1), Ev.submit kA (okOp 2), Ev.finish kA, Ev.finish kA,
      Ev.submit kA (okOp 3), Ev.submit kA (okOp 4), Ev.finish kA, Ev.finish kA]).log =
      [.enqueued kA 0, .workerStart kA, .opStart kA 0 (.ok 1),
       .enqueued kA 1,
       .resolved kA 0 1, .opStart kA 1 (.ok 2),
       .resolved kA 1 2, .workerStop kA,
       .enqueued kA 2, .workerStart kA, .opStart kA 2 (.ok 3),
       .enqueued kA 3,
       .resolved kA 2 3, .opStart kA 3 (.ok 4),
       .resolved kA 3 4, .workerStop kA] := by
  refine ⟨?_, by rfl⟩
  exact (claim_C6_drained_key_fresh
    (run () [Ev.submit kA (okOp 1), Ev.submit kA (okOp 2), Ev.finish kA, Ev.finish kA])
    kA (okOp 3) (by rfl) (by rfl) (by rfl)).2.2.1

/-- C7 (counterexample): submission with a `null` key does not fail — the
queue performs no input validation at all.  A JS `Map` accepts `null` as a
key, so `enqueue(null, op)` enqueues, runs and resolves exactly like any
other key: the run below completes with the operation's own value and a
clean registry, refuting the claim's assertion that for invalid input
(such as a null key) the submission fails. -/
theorem claim_C7_null_key_counterexample :
    (run () [Ev.submit JSKey.null (okOp 42), Ev.finish JSKey.null]).log =
      [.enqueued .null 0, .workerStart .null, .opStart .null 0 (.ok 42),
       .resolved .null 0 42, .workerStop .null] ∧
    (run () [Ev.submit JSKey.null (okOp 42), Ev.finish JSKey.null]).queues = [] ∧
    doneIds JSKey.null
        (run () [Ev.submit JSKey.null (okOp 42), Ev.finish JSKey.null]).log =
      subIds JSKey.null
        (run () [Ev.submit JSKey.null (okOp 42), Ev.finish JSKey.null]).log :=
  ⟨rfl, rfl, rfl⟩

/-- C7 (amended): `enqueue` itself never fails for any key — including a
null key — and introduces no error kind of its own: every call records
exactly one submission (the returned handle), and the submission step
completes no handle, so the only completions ever delivered are the
operations' own outcomes. -/
theorem claim_C7_enqueue_never_fails {W V E : Type} [DecidableEq V] [DecidableEq E]
    (s : Sys W V E) (k : JSKey) (op : W → W × Except E V) :
    (enqueue s k op).nextId = s.nextId + 1 ∧
    subIds k (enqueue s k op).log = subIds k s.log ++ [s.nextId] ∧
    (∀ t, doneIds t (enqueue s k op).log = doneIds t s.log) := by
  refine ⟨enqueue_nextId, ?_, fun t => doneIds_enqueue t⟩
  rw [subIds_enqueue]
  simp

/-- C9: operations under distinct keys never block each other: a step on
key `k` (submission or delivery) leaves every other key's registry entry,
in-flight entry, worker flag and history untouched, and a submission to an
idle key starts its operation within the same atomic step, whatever other
keys are doing.  (The spec's wall-clock figure — three ~50ms operations
finishing in ~50ms — is real time, abstracted here to the possibility of
all three being simultaneously in flight; see the witness.) -/
theorem claim_C9_cross_key_independence {W V E : Type} [DecidableEq V] [DecidableEq E] :
    (∀ (s : Sys W V E) (k k' : JSKey) (op : W → W × Except E V), k' ≠ k →
      alookup k' (enqueue s k op).queues = alookup k' s.queues ∧
      alookup k' (enqueue s k op).current = alookup k' s.current ∧
      smem k' (enqueue s k op).processing = smem k' s.processing ∧
      keyTrace k' (enqueue s k op).log = keyTrace k' s.log ∧
      workerEvs k' (enqueue s k op).log = workerEvs k' s.log) ∧
    (∀ (s : Sys W V E) (k k' : JSKey), k' ≠ k →
      alookup k' (finish s k).queues = alookup k' s.queues ∧
      alookup k' (finish s k).current = alookup k' s.current ∧
      smem k' (finish s k).processing = smem k' s.processing ∧
      keyTrace k' (finish s k).log = keyTrace k' s.log ∧
      workerEvs k' (finish s k).log = workerEvs k' s.log) ∧
    (∀ (s : Sys W V E) (k : JSKey) (op : W → W × Except E V),
      smem k s.processing = false → alookup k s.queues = none →
      alookup k (enqueue s k op).current = some (s.nextId, (op s.world).2)) := by
  refine ⟨?_, ?_, ?_⟩
  · intro s k k' op hne
    obtain ⟨h1, h2, h3, _, _, _, h7, h8⟩ := enqueue_frame hne s op
    exact ⟨h1, h2, h3, h7, h8⟩
  · intro s k k' hne
    obtain ⟨h1, h2, h3, _, _, _, h7, h8⟩ := finish_frame hne s
    exact ⟨h1, h2, h3, h7, h8⟩
  · intro s k op hp hq
    rw [enqueue_idle hp, workerStart_cons ⟨s.nextId, op⟩ []
      (by rw [alookup_pushEntry_queues_self, hq]; rfl)]
    simp [alookup_aset_self]

/-! ## The counter-reset job (`resetCounters` in src/jobs) -/

/-- Shared state of one `resetCounters` run: the one-shot closure flag
`resetExecuted`, the number of invocations of
`counterService.resetAllCounters` (ghost instrumentation), and the
`resetCount` the service reported. -/
structure ResetWorld where
  resetExecuted : Bool
  resetCalls : Nat
  resetCount : Nat
deriving DecidableEq, Repr

def initResetWorld : ResetWorld := ⟨false, 0, 0⟩

/-- The operation `resetCounters` enqueues for every tenant:
`if (!resetExecuted) { resetExecuted = true; resetCount = await
counterService.resetAllCounters(); } return resetCount;`.
`nReset` stands for the row count `resetAllCounters` reports. -/
def resetOp (nReset : Nat) : ResetWorld → ResetWorld × Except Unit Nat := fun w =>
  if w.resetExecuted then (w, .ok w.resetCount)
  else ({ resetExecuted := true, resetCalls := w.resetCalls + 1, resetCount := nReset },
    .ok nReset)

/-- `tenantIds.map(tenantId => queue.enqueue(tenantId, wrappedReset))`:
the map callback runs `enqueue` synchronously, so the whole loop performs
its submissions in one run-to-completion turn, one per tenant id. -/
def resetSubmits (nReset : Nat) (tids : List JSKey) : List (Ev ResetWorld Nat Unit) :=
  tids.map (fun t => Ev.submit t (resetOp nReset))

/-- Every queued entry carries the wrapped reset operation. -/
def OnlyReset (nReset : Nat) (s : Sys ResetWorld Nat Unit) : Prop :=
  ∀ k q, alookup k s.queues = some q → ∀ e ∈ q, e.op = resetOp nReset

/-- One-shot discipline: either no operation has started anywhere and the
world is untouched, or `resetAllCounters` has been invoked exactly once. -/
def ResetInv (s : Sys ResetWorld Nat Unit) : Prop :=
  (s.world = initResetWorld ∧ ∀ k, startIds k s.log = []) ∨
  (s.world.resetCalls = 1 ∧ s.world.resetExecuted = true)

/-- Number of submissions for key `t` in an event list. -/
def submitsFor (t : JSKey) : List (Ev W V E) → Nat
  | [] => 0
  | Ev.submit k _ :: rest => (if k = t then 1 else 0) + submitsFor t rest
  | Ev.finish _ :: rest => submitsFor t rest

theorem subIds_foldl_length (t : JSKey) (evs : List (Ev W V E)) (s : Sys W V E) :
    (subIds t (evs.foldl step s).log).length =
      (subIds t s.log).length + submitsFor t evs := by
  induction evs generalizing s with
  | nil => simp [submitsFor]
  | cons ev rest ih =>
      cases ev with
      | submit k op =>
          rw [List.foldl_cons, ih]
          have hst : step s (Ev.submit k op) = enqueue s k op := rfl
          rw [hst, subIds_enqueue]
          by_cases h : k = t <;> simp [h, submitsFor] <;> omega
      | finish k =>
          rw [List.foldl_cons, ih]
          have hst : step s (Ev.finish k) = finish s k := rfl
          rw [hst, subIds_finish]
          simp [submitsFor]

theorem submitsFor_resetSubmits (nReset : Nat) (t : JSKey) (tids : List JSKey) :
    submitsFor t (resetSubmits nReset tids) = tids.count t := by
  induction tids with
  | nil => rfl
  | cons a rest ih =>
      simp only [resetSubmits, List.map_cons, submitsFor, List.count_cons] at ih ⊢
      by_cases h : a = t <;> simp [h, ih] <;> omega

theorem submitsFor_append (t : JSKey) (l l' : List (Ev W V E)) :
    submitsFor t (l ++ l') = submitsFor t l + submitsFor t l' := by
  induction l with
  | nil => simp [submitsFor]
  | cons ev rest ih => cases ev <;> simp [submitsFor, ih] <;> omega

theorem submitsFor_finish_only {t : JSKey} {fins : List (Ev W V E)}
    (hf : ∀ ev ∈ fins, ∃ k, ev = Ev.finish k) : submitsFor t fins = 0 := by
  induction fins with
  | nil => rfl
  | cons ev rest ih =>
      obtain ⟨k, rfl⟩ := hf ev (List.mem_cons_self ev rest)
      simp only [submitsFor]
      exact ih (fun e he => hf e (List.mem_cons_of_mem _ he))

theorem resetInv_enqueue (nReset : Nat) {s : Sys ResetWorld Nat Unit}
    (hO : OnlyReset nReset s) (hR : ResetInv s) (k : JSKey) :
    OnlyReset nReset (enqueue s k (resetOp nReset)) ∧
      ResetInv (enqueue s k (resetOp nReset)) := by
  by_cases hb : smem k s.processing
  · rw [enqueue_busy hb]
    constructor
    · intro k' q hq e he
      by_cases hk : k' = k
      · subst hk
        rw [alookup_pushEntry_queues_self] at hq
        cases hq
        rcases List.mem_append.mp he with h | h
        · cases hqq : alookup k' s.queues with
          | none => rw [hqq] at h; cases h
          | some q0 =>
              rw [hqq] at h
              exact hO k' q0 hqq e h
        · simp at h
          rw [h]
      · rw [alookup_pushEntry_queues_ne hk] at hq
        exact hO k' q hq e he
    · rcases hR with ⟨hw, hs⟩ | ⟨h1, h2⟩
      · exact Or.inl ⟨hw, fun k' => by simpa using hs k'⟩
      · exact Or.inr ⟨h1, h2⟩
  · have hb' : smem k s.processing = false := by simpa using hb
    -- the worker starts at once and begins the first backlog entry
    cases hqk : alookup k s.queues with
    | none =>
        rw [enqueue_idle hb', workerStart_cons ⟨s.nextId, resetOp nReset⟩ []
          (by rw [alookup_pushEntry_queues_self, hqk]; rfl)]
        constructor
        · intro k' q hq e he
          by_cases hk : k' = k
          · subst hk
            simp only [startOp_queues, alookup_aset_self] at hq
            cases hq
            cases he
          · simp only [startOp_queues, alookup_aset_ne hk, alookup_pushEntry_queues_ne hk] at hq
            exact hO k' q hq e he
        · rcases hR with ⟨hw, hs⟩ | ⟨h1, h2⟩
          · right
            constructor <;> simp [hw, initResetWorld, resetOp]
          · right
            constructor <;> simp [resetOp, h2, h1]
    | some q0 =>
        cases q0 with
        | nil =>
            rw [enqueue_idle hb', workerStart_cons ⟨s.nextId, resetOp nReset⟩ []
              (by rw [alookup_pushEntry_queues_self, hqk]; rfl)]
            constructor
            · intro k' q hq e he
              by_cases hk : k' = k
              · subst hk
                simp only [startOp_queues, alookup_aset_self] at hq
                cases hq
                cases he
              · simp only [startOp_queues, alookup_aset_ne hk, alookup_pushEntry_queues_ne hk] at hq
                exact hO k' q hq e he
            · rcases hR with ⟨hw, hs⟩ | ⟨h1, h2⟩
              · right
                constructor <;> simp [hw, initResetWorld, resetOp]
              · right
                constructor <;> simp [resetOp, h2, h1]
        | cons e0 q1 =>
            have hop : e0.op = resetOp nReset :=
              hO k (e0 :: q1) hqk e0 (List.mem_cons_self e0 q1)
            rw [enqueue_idle hb', workerStart_cons e0 (q1 ++ [⟨s.nextId, resetOp nReset⟩])
              (by rw [alookup_pushEntry_queues_self, hqk]; rfl)]
            constructor
            · intro k' q hq e he
              by_cases hk : k' = k
              · subst hk
                simp only [startOp_queues, alookup_aset_self] at hq
                cases hq
                rcases List.mem_append.mp he with h | h
                · exact hO k' (e0 :: q1) hqk e (List.mem_cons_of_mem e0 h)
                · simp at h
                  rw [h]
              · simp only [startOp_queues, alookup_aset_ne hk, alookup_pushEntry_queues_ne hk] at hq
                exact hO k' q hq e he
            · rcases hR with ⟨hw, hs⟩ | ⟨h1, h2⟩
              · right
                constructor <;> simp [hop, hw, initResetWorld, resetOp]
              · right
                constructor <;> simp [hop, resetOp, h2, h1]

theorem resetInv_finish (nReset : Nat) {s : Sys ResetWorld Nat Unit}
    (hO : OnlyReset nReset s) (hR : ResetInv s) (k : JSKey) :
    OnlyReset nReset (finish s k) ∧ ResetInv (finish s k) := by
  cases hc : alookup k s.current with
  | none =>
      rw [finish_none hc]
      exact ⟨hO, hR⟩
  | some p =>
      obtain ⟨id, out⟩ := p
      cases hqk : alookup k s.queues with
      | none =>
          rw [finish_last hc (by rw [hqk]; rfl)]
          constructor
          · intro k' q hq e he
            by_cases hk : k' = k
            · subst hk
              simp only [alookup_adel_self] at hq
              cases hq
            · simp only [alookup_adel_ne hk] at hq
              exact hO k' q hq e he
          · rcases hR with ⟨hw, hs⟩ | ⟨h1, h2⟩
            · exact Or.inl ⟨hw, fun k' => by simpa using hs k'⟩
            · exact Or.inr ⟨h1, h2⟩
      | some q0 =>
          cases q0 with
          | nil =>
              rw [finish_last hc (by rw [hqk]; rfl)]
              constructor
              · intro k' q hq e he
                by_cases hk : k' = k
                · subst hk
                  simp only [alookup_adel_self] at hq
                  cases hq
                · simp only [alookup_adel_ne hk] at hq
                  exact hO k' q hq e he
              · rcases hR with ⟨hw, hs⟩ | ⟨h1, h2⟩
                · exact Or.inl ⟨hw, fun k' => by simpa using hs k'⟩
                · exact Or.inr ⟨h1, h2⟩
          | cons e0 q1 =>
              have hop : e0.op = resetOp nReset :=
                hO k (e0 :: q1) hqk e0 (List.mem_cons_self e0 q1)
              rw [finish_cons hc hqk]
              constructor
              · intro k' q hq e he
                by_cases hk : k' = k
                · subst hk
                  simp only [startOp_queues, alookup_aset_self] at hq
                  cases hq
                  exact hO k' (e0 :: q1) hqk e (List.mem_cons_of_mem e0 he)
                · simp only [startOp_queues, alookup_aset_ne hk, alookup_adel_ne hk] at hq
                  exact hO k' q hq e he
              · rcases hR with ⟨hw, hs⟩ | ⟨h1, h2⟩
                · right
                  constructor <;> simp [hop, hw, initResetWorld, resetOp]
                · right
                  constructor <;> simp [hop, resetOp, h2, h1]

theorem resetInv_foldl (nReset : Nat) (evs : List (Ev ResetWorld Nat Unit))
    (s : Sys ResetWorld Nat Unit) (hO : OnlyReset nReset s) (hR : ResetInv s)
    (hall : ∀ ev ∈ evs,
      (∃ k, ev = Ev.submit k (resetOp nReset)) ∨ ∃ k, ev = Ev.finish k) :
    OnlyReset nReset (evs.foldl step s) ∧ ResetInv (evs.foldl step s) := by
  induction evs generalizing s with
  | nil => exact ⟨hO, hR⟩
  | cons ev rest ih =>
      rw [List.foldl_cons]
      rcases hall ev (List.mem_cons_self ev rest) with ⟨k, rfl⟩ | ⟨k, rfl⟩
      · obtain ⟨hO', hR'⟩ := resetInv_enqueue nReset hO hR k
        exact ih _ hO' hR' (fun e he => hall e (List.mem_cons_of_mem _ he))
      · obtain ⟨hO', hR'⟩ := resetInv_finish nReset hO hR k
        exact ih _ hO' hR' (fun e he => hall e (List.mem_cons_of_mem _ he))

theorem run_finish_only {w : W} {fins : List (Ev W V E)}
    (hf : ∀ ev ∈ fins, ∃ k, ev = Ev.finish k) : run w fins = initSys w := by
  unfold run
  induction fins with
  | nil => rfl
  | cons ev rest ih =>
      obtain ⟨k, rfl⟩ := hf ev (List.mem_cons_self ev rest)
      rw [List.foldl_cons]
      have h1 : step (initSys w) (Ev.finish k) = initSys (V := V) (E := E) w := by
        show finish (initSys w) k = initSys w
        exact finish_none (by rfl)
      rw [h1]
      exact ih (fun e he => hf e (List.mem_cons_of_mem _ he))

/-- C8: in one run of `resetCounters` over the known tenant ids, `enqueue`
is called exactly once per tenant id (the instrumented submission count
for each key equals that key's multiplicity among the tenant ids), and —
under any schedule of completions that drains all queues —
`counterService.resetAllCounters` is invoked exactly once when at least
one tenant id exists and never otherwise: the one-shot flag makes every
other tenant's entry a no-op. -/
theorem claim_C8_reset_executes_once (nReset : Nat) (tids : List JSKey)
    (fins : List (Ev ResetWorld Nat Unit))
    (hf : ∀ ev ∈ fins, ∃ k, ev = Ev.finish k)
    (hquiet : ∀ k,
      alookup k (run initResetWorld (resetSubmits nReset tids ++ fins)).queues = none) :
    (resetSubmits nReset tids).length = tids.length ∧
    (∀ t, (subIds t
      (run initResetWorld (resetSubmits nReset tids ++ fins)).log).length =
        tids.count t) ∧
    (run initResetWorld (resetSubmits nReset tids ++ fins)).world.resetCalls =
      (if tids = [] then 0 else 1) := by
  refine ⟨by simp [resetSubmits], ?_, ?_⟩
  · intro t
    have h := subIds_foldl_length t (resetSubmits nReset tids ++ fins)
      (initSys initResetWorld)
    rw [run, h]
    rw [submitsFor_append, submitsFor_finish_only hf, submitsFor_resetSubmits]
    simp [initSys]
  · cases tids with
    | nil =>
        have : run initResetWorld (resetSubmits nReset [] ++ fins) =
            initSys initResetWorld := by
          simpa [resetSubmits] using run_finish_only hf
        rw [this]
        rfl
    | cons t0 ts =>
        have hall : ∀ ev ∈ resetSubmits nReset (t0 :: ts) ++ fins,
            (∃ k, ev = Ev.submit k (resetOp nReset)) ∨ ∃ k, ev = Ev.finish k := by
          intro ev hev
          rcases List.mem_append.mp hev with h | h
          · obtain ⟨t, _, rfl⟩ := List.mem_map.mp h
            exact Or.inl ⟨t, rfl⟩
          · exact Or.inr (hf ev h)
        obtain ⟨hO, hR⟩ := resetInv_foldl nReset
          (resetSubmits nReset (t0 :: ts) ++ fins) (initSys initResetWorld)
          (fun k q hq => by cases hq) (Or.inl ⟨rfl, fun k => rfl⟩) hall
        rw [show run initResetWorld (resetSubmits nReset (t0 :: ts) ++ fins) =
          (resetSubmits nReset (t0 :: ts) ++ fins).foldl step
            (initSys initResetWorld) from rfl] at hquiet ⊢
        rcases hR with ⟨hw, hs⟩ | ⟨h1, h2⟩
        · -- impossible: tenant t0 was submitted, drained, hence started
          exfalso
          set F := (resetSubmits nReset (t0 :: ts) ++ fins).foldl step
            (initSys initResetWorld) with hF
          obtain ⟨cp, qc, sub_eq, done_eq, alt, wa, sl, sc⟩ :=
            inv_foldl (initSys initResetWorld) (inv_initSys initResetWorld)
              (resetSubmits nReset (t0 :: ts) ++ fins) t0
          have hlen : (subIds t0 F.log).length =
              (subIds t0 (initSys (V := Nat) (E := Unit) initResetWorld).log).length +
                submitsFor t0 (resetSubmits nReset (t0 :: ts) ++ fins) :=
            subIds_foldl_length t0 _ _
          have hpos : 0 < (subIds t0 F.log).length := by
            rw [hlen]
            have hsub : 0 < submitsFor t0 (resetSubmits nReset (t0 :: ts)) := by
              simp [resetSubmits, submitsFor]
            rw [submitsFor_append]
            omega
          have hbl : backlogIds t0 F = [] := by simp [backlogIds, hquiet t0]
          rw [sub_eq, hbl, List.append_nil] at hpos
          rw [hs t0] at hpos
          exact absurd hpos (by simp)
        · rw [h1]
          simp

theorem claim_C8_reset_executes_once_witness :
    (run initResetWorld (resetSubmits 5 [kA, kB] ++
      [Ev.finish kA, Ev.finish kB])).world.resetCalls = 1 ∧
    (subIds kA (run initResetWorld (resetSubmits 5 [kA, kB] ++
      [Ev.finish kA, Ev.finish kB])).log).length = 1 := by
  have h := claim_C8_reset_executes_once 5 [kA, kB] [Ev.finish kA, Ev.finish kB]
    (by intro ev hev
        simp at hev
        rcases hev with rfl | rfl
        · exact ⟨kA, rfl⟩
        · exact ⟨kB, rfl⟩)
    (by intro k; rfl)
  refine ⟨?_, ?_⟩
  · have h3 := h.2.2
    simpa using h3
  · have h2 := h.2.1 kA
    simpa [kA, kB] using h2

theorem claim_C9_cross_key_independence_witness :
    alookup kC (run () [Ev.submit kA (okOp 1), Ev.submit kB (okOp 2),
      Ev.submit kC (okOp 3)]).current = some (2, Except.ok 3) ∧
    alookup kA (run () [Ev.submit kA (okOp 1), Ev.submit kB (okOp 2),
      Ev.submit kC (okOp 3)]).current = some (0, Except.ok 1) ∧
    alookup kB (run () [Ev.submit kA (okOp 1), Ev.submit kB (okOp 2),
      Ev.submit kC (okOp 3)]).current = some (1, Except.ok 2) := by
  refine ⟨?_, by rfl, by rfl⟩
  exact claim_C9_cross_key_independence.2.2
    (run () [Ev.submit kA (okOp 1), Ev.submit kB (okOp 2)]) kC (okOp 3)
    (by rfl) (by rfl)

/-! ## `formatOrderNumber` (src/utils/index.js) -/

/-- Exact decimal digits of a natural number, most significant first; the
fuel (first argument) only needs to exceed the number itself.  These are
the digits `Number.prototype.toString` prints in its decimal regime: for
every integer up to `2 ^ 53` (all exactly representable as doubles, and
below the magnitude where an integer's exact decimal expansion could
differ from the shortest round-trip output) the printed numeral is
exactly this digit string. -/
def natDigitsAux : Nat → Nat → List Char
  | 0, _ => []
  | fuel + 1, n =>
      if n < 10 then [Char.ofNat (48 + n)]
      else natDigitsAux fuel (n / 10) ++ [Char.ofNat (48 + n % 10)]

def natDigits (n : Nat) : List Char := natDigitsAux (n + 1) n

theorem natDigitsAux_fuel {f f' n : Nat} (h : n < f) (h' : n < f') :
    natDigitsAux f n = natDigitsAux f' n := by
  induction f generalizing f' n with
  | zero => omega
  | succ f ih =>
      cases f' with
      | zero => omega
      | succ f' =>
          simp only [natDigitsAux]
          by_cases h10 : n < 10
          · simp [h10]
          · have hd : n / 10 < n := Nat.div_lt_self (by omega) (by omega)
            simp only [h10, if_false]
            rw [ih (by omega) (show n / 10 < f' from by omega)]

/-- Unfolding equation for `natDigits`. -/
theorem natDigits_eq (n : Nat) :
    natDigits n =
      if n < 10 then [Char.ofNat (48 + n)]
      else natDigits (n / 10) ++ [Char.ofNat (48 + n % 10)] := by
  unfold natDigits
  by_cases h10 : n < 10
  · simp [natDigitsAux, h10]
  · have hd : n / 10 < n := Nat.div_lt_self (by omega) (by omega)
    simp only [natDigitsAux, h10, if_false]
    rw [natDigitsAux_fuel (show n / 10 < n from hd) (Nat.lt_succ_self _)]
    rfl

theorem natDigits_ne_nil (n : Nat) : natDigits n ≠ [] := by
  rw [natDigits_eq]
  by_cases h : n < 10 <;> simp [h]

end OrderApi
